import Mathlib

set_option maxHeartbeats 1000000

/-!
Verification of the stream data-structure core of fakeredis
(`src/fakeredis/_stream.py`).  The Python code is embedded shallowly:
byte strings and text strings become lists of characters (`decode` is the
identity), Python integers become `Nat`/`Int`, exceptions become an error
sum, and every stateful method becomes a function from the old state to
the result paired with the new state.
-/

/-- Byte/character strings of the Python code, modelled as lists of characters
(`bytes.decode` is the identity in this embedding). -/
abbrev Str := List Char

/-- Decimal digit character for a value below ten (the digits Python's `str`
rendering of a non-negative integer uses). -/
def digitChar : Nat → Char
  | 0 => '0'
  | 1 => '1'
  | 2 => '2'
  | 3 => '3'
  | 4 => '4'
  | 5 => '5'
  | 6 => '6'
  | 7 => '7'
  | 8 => '8'
  | _ => '9'

/-- Decimal rendering of a natural number, as Python's `str(n)` / f-string
interpolation produces it.  Written with explicit fuel (the argument shrinks by
a factor of ten each step, so `n + 1` steps always suffice) so that it reduces
inside the kernel. -/
def natDigitsGo : Nat → Nat → List Char
  | 0, _ => []
  | fuel + 1, n =>
    if n < 10 then [digitChar n] else natDigitsGo fuel (n / 10) ++ [digitChar (n % 10)]

/-- Python `str(n)` for a non-negative integer. -/
def natDigits (n : Nat) : Str := natDigitsGo (n + 1) n

/-- Numeric value of a digit string: the value Python's `int` returns on a
plain decimal numeral. -/
def digitsVal (s : Str) : Nat := s.foldl (fun n c => 10 * n + (c.toNat - 48)) 0

/-- Python `int(s)` on the strings this code parses, defined on plain non-empty
decimal numerals and failing (`ValueError`) otherwise.  Python's `int`
additionally tolerates surrounding whitespace, a leading sign and underscores
between digits; every claim below quantifies over plain decimal components, on
which the two functions agree. -/
def strToNat? (s : Str) : Option Nat :=
  if !s.isEmpty && s.all Char.isDigit then some (digitsVal s) else none

/-- Python `str.split(sep)` for a one-character separator: the result always has
at least one (possibly empty) component. -/
def splitChar (sep : Char) : Str → List Str
  | [] => [[]]
  | c :: rest =>
    match splitChar sep rest with
    | [] => [[]]
    | r :: rs => if c = sep then [] :: r :: rs else (c :: r) :: rs

/-- Python list slicing `l[i:]` with an arbitrary (possibly negative) index:
a negative index counts from the end, and out-of-range values clamp. -/
def pySliceFrom {α : Type} (l : List α) (i : Int) : List α :=
  let start : Int := if i < 0 then (l.length : Int) + i else i
  l.drop start.toNat

/-- Python list slicing `l[i:j]`. -/
def pySlice {α : Type} (l : List α) (i j : Int) : List α :=
  let start : Int := if i < 0 then (l.length : Int) + i else i
  let stop : Int := if j < 0 then (l.length : Int) + j else j
  (l.take stop.toNat).drop start.toNat

/-- `StreamEntryKey`: a stream entry id `(timestamp, sequence)`.  Both
components come out of Python `int` on dash-free numerals, hence are
non-negative. -/
structure StreamEntryKey where
  ts : Nat
  seq : Nat
deriving DecidableEq

/-- Python tuple comparison `<` on entry keys: lexicographic on
`(ts, seq)` as integers. -/
def kLT (a b : StreamEntryKey) : Bool :=
  a.ts < b.ts || (a.ts == b.ts && a.seq < b.seq)

/-- Python tuple comparison `<=` on entry keys. -/
def kLE (a b : StreamEntryKey) : Bool := !(kLT b a)

/-- Python `max` of two keys (the first argument wins a tie, which is
irrelevant for these pure values). -/
def kmax (a b : StreamEntryKey) : StreamEntryKey := if kLT a b then b else a

/-- `StreamEntryKey.encode`: the canonical `ts-seq` decimal form. -/
def StreamEntryKey.encode (k : StreamEntryKey) : Str :=
  natDigits k.ts ++ '-' :: natDigits k.seq

/-- `StreamEntryKey.parse_str`: split on `-`; a single component means
sequence 0; with two or more components the first two are parsed and any
further components are ignored.  A non-numeric component raises `ValueError`,
modelled as `none`. -/
def StreamEntryKey.parse_str (s : Str) : Option StreamEntryKey :=
  match splitChar '-' s with
  | [a] => (strToNat? a).map fun t => ⟨t, 0⟩
  | a :: b :: _ =>
    match strToNat? a, strToNat? b with
    | some t, some q => some ⟨t, q⟩
    | _, _ => none
  | [] => none

/-- `StreamEntry`: an entry key together with its flat field/value list. -/
structure StreamEntry where
  key : StreamEntryKey
  fields : List Str
deriving DecidableEq

/-- `StreamEntry.format_record`: `[key.encode(), fields]`. -/
def StreamEntry.format_record (e : StreamEntry) : Str × List Str :=
  (e.key.encode, e.fields)

/-- The Python exceptions reachable in this module. -/
inductive PyErr
  | valueError
  | typeError
  | indexError
  | assertionError
deriving DecidableEq

/-- `bisect.bisect_left` on a key list: binary search for the leftmost
insertion point.  Written with explicit fuel — the searched span shrinks by at
least one element per iteration, so `l.length` steps always suffice — so that
it reduces inside the kernel. -/
def bisectLeftGo (l : List StreamEntryKey) (x : StreamEntryKey) : Nat → Nat → Nat → Nat
  | 0, lo, _ => lo
  | fuel + 1, lo, hi =>
    if lo < hi then
      let mid := (lo + hi) / 2
      if kLT (l.getD mid ⟨0, 0⟩) x then bisectLeftGo l x fuel (mid + 1) hi
      else bisectLeftGo l x fuel lo mid
    else lo

/-- `bisect.bisect_left l x` over the whole list. -/
def bisectLeft (l : List StreamEntryKey) (x : StreamEntryKey) : Nat :=
  bisectLeftGo l x l.length 0 l.length

/-- `bisect.bisect_right`, analogously. -/
def bisectRightGo (l : List StreamEntryKey) (x : StreamEntryKey) : Nat → Nat → Nat → Nat
  | 0, lo, _ => lo
  | fuel + 1, lo, hi =>
    if lo < hi then
      let mid := (lo + hi) / 2
      if kLT x (l.getD mid ⟨0, 0⟩) then bisectRightGo l x fuel lo mid
      else bisectRightGo l x fuel (mid + 1) hi
    else lo

/-- `bisect.bisect_right l x` over the whole list. -/
def bisectRight (l : List StreamEntryKey) (x : StreamEntryKey) : Nat :=
  bisectRightGo l x l.length 0 l.length

/-- `XStream` state: the ordered entry list `_values`, the `_max_deleted_id`
watermark and the `_entries_added` counter.  The group registry `_groups` maps
names to `StreamGroup` objects that only hold a back reference to the stream;
groups are modelled below as separate values whose operations take the
stream's entry list as an argument. -/
structure XStream where
  values : List StreamEntry
  maxDeletedId : StreamEntryKey
  entriesAdded : Nat
deriving DecidableEq

/-- `XStream.__init__`. -/
def emptyStream : XStream := ⟨[], ⟨0, 0⟩, 0⟩

/-- The key column of an entry list (`map(lambda x: x.key, self._values)`). -/
def keysOf (l : List StreamEntry) : List StreamEntryKey := l.map (·.key)

/-- `XStream.find_index` on an entry list: `(insertion index, exact match?)`;
an empty list yields `(0, false)`. -/
def findIndexV (values : List StreamEntry) (k : StreamEntryKey) (fromLeft : Bool) : Nat × Bool :=
  if values.length = 0 then (0, false)
  else
    let ind := if fromLeft then bisectLeft (keysOf values) k else bisectRight (keysOf values) k
    (ind, decide (ind < values.length) && ((values.getD ind ⟨⟨0, 0⟩, []⟩).key == k))

/-- `XStream.find_index`. -/
def XStream.find_index (st : XStream) (k : StreamEntryKey) (fromLeft : Bool) : Nat × Bool :=
  findIndexV st.values k fromLeft

/-- `XStream.find_index_key_as_str`: the string `$` is reported as an exact
match at index `max(len - 1, 0)` without consulting the stored keys; any other
string is parsed (a parse failure raises `ValueError`, modelled as `none`). -/
def XStream.find_index_key_as_str (st : XStream) (s : Str) : Option (Nat × Bool) :=
  if s = ['$'] then some ((max ((st.values.length : Int) - 1) 0).toNat, true)
  else (StreamEntryKey.parse_str s).map fun k => st.find_index k true

/-- `XStream.parse_ts_seq`. -/
def XStream.parse_ts_seq (s : Str) : Option StreamEntryKey :=
  if s = ['$'] then some ⟨0, 0⟩ else StreamEntryKey.parse_str s

/-- Key-resolution part of `XStream.add` (everything before the
non-increasing-key check).  `now` is the wall-clock millisecond value
`int(1000 * time.time())` read by the call.  `.ok none` is the early
`return None` for a `*`-terminated key spec that does not split into exactly
two components.  In the generated-key branch the Python guard
`last.seq >= 0` always holds.  An empty key spec hits `entry_key[-1]`, an
`IndexError`. -/
def XStream.resolveKey (st : XStream) (entryKey : Str) (now : Nat) :
    Except PyErr (Option StreamEntryKey) :=
  if entryKey = ['*'] then
    match (keysOf st.values).getLast? with
    | some last =>
      if last.ts = now then .ok (some ⟨now, last.seq + 1⟩) else .ok (some ⟨now, 0⟩)
    | none => .ok (some ⟨now, 0⟩)
  else
    match entryKey.getLast? with
    | none => .error .indexError
    | some c =>
      if c = '*' then
        match splitChar '-' entryKey with
        | [a, _] =>
          match strToNat? a with
          | none => .error .valueError
          | some ts =>
            match (keysOf st.values).getLast? with
            | some last =>
              if last.ts = ts then .ok (some ⟨ts, last.seq + 1⟩) else .ok (some ⟨ts, 0⟩)
            | none => .ok (some ⟨ts, 0⟩)
        | _ => .ok none
      else
        match StreamEntryKey.parse_str entryKey with
        | none => .error .valueError
        | some k => .ok (some k)

/-- `XStream.add`: the odd-length field list assertion, key resolution, the
rejection of a key below the last stored key, and the append. -/
def XStream.add (st : XStream) (fields : List Str) (entryKey : Str) (now : Nat) :
    Except PyErr (Option Str) × XStream :=
  if fields.length % 2 ≠ 0 then (.error .assertionError, st)
  else
    match st.resolveKey entryKey now with
    | .error e => (.error e, st)
    | .ok none => (.ok none, st)
    | .ok (some k) =>
      match (keysOf st.values).getLast? with
      | some last =>
        if kLT k last then (.ok none, st)
        else (.ok (some k.encode),
              ⟨st.values ++ [⟨k, fields⟩], st.maxDeletedId, st.entriesAdded + 1⟩)
      | none =>
        (.ok (some k.encode),
         ⟨st.values ++ [⟨k, fields⟩], st.maxDeletedId, st.entriesAdded + 1⟩)

/-- Loop of `XStream.delete`: an exception raised mid-loop propagates and
leaves the deletions already performed in place, exactly as in Python. -/
def deleteGo (st : XStream) (res : Int) : List Str → Except PyErr Int × XStream
  | [] => (.ok res, st)
  | item :: rest =>
    match st.find_index_key_as_str item with
    | none => (.error .valueError, st)
    | some (ind, found) =>
      if found then
        match st.values[ind]? with
        | none => (.error .indexError, st)
        | some e =>
          deleteGo ⟨st.values.eraseIdx ind, kmax e.key st.maxDeletedId, st.entriesAdded⟩
            (res + 1) rest
      else deleteGo st res rest

/-- `XStream.delete`. -/
def XStream.delete (st : XStream) (lst : List Str) : Except PyErr Int × XStream :=
  deleteGo st 0 lst

/-- Final step of `XStream.trim`: the returned index (`max(start_ind, 0)`
without a limit, `min(start_ind, limit)` with one — the clamping `max` is
discarded in that case) and the slice `self._values[res:]`, with Python
semantics for a negative index. -/
def trimFinish (st : XStream) (startInd : Int) (limit : Option Int) :
    Except PyErr Int × XStream :=
  let res : Int :=
    match limit with
    | none => max startInd 0
    | some l => min startInd l
  (.ok res, ⟨pySliceFrom st.values res, st.maxDeletedId, st.entriesAdded⟩)

/-- `XStream.trim`.  Supplying both `max_length` and `start_entry_key` raises
`ValueError`; supplying neither reaches `max(None, 0)`, a `TypeError`. -/
def XStream.trim (st : XStream) (maxLength : Option Int) (startEntryKey : Option Str)
    (limit : Option Int) : Except PyErr Int × XStream :=
  match maxLength, startEntryKey with
  | some _, some _ => (.error .valueError, st)
  | some m, none => trimFinish st ((st.values.length : Int) - m) limit
  | none, some s =>
    match st.find_index_key_as_str s with
    | none => (.error .valueError, st)
    | some (ind, _) => trimFinish st (ind : Int) limit
  | none, none => (.error .typeError, st)

/-- `XStream.stream_read` on an entry list: entries strictly after `start_key`
(an exact match is skipped), up to `count` of them. -/
def streamReadV (values : List StreamEntry) (startKey : StreamEntryKey) (count : Option Int) :
    List StreamEntry :=
  let p := findIndexV values startKey true
  let si := if p.2 then p.1 + 1 else p.1
  if si ≥ values.length then []
  else
    let endInd : Int :=
      match count with
      | none => (values.length : Int)
      | some c =>
        if (si : Int) + c ≥ (values.length : Int) then (values.length : Int) else (si : Int) + c
    pySlice values (si : Int) endInd

/-- `XStream.stream_read`. -/
def XStream.stream_read (st : XStream) (startKey : StreamEntryKey) (count : Option Int) :
    List StreamEntry :=
  streamReadV st.values startKey count

/-- `StreamConsumerInfo`: per-consumer counters.  The two timestamps are
wall-clock values supplied by the caller; in Python the dataclass defaults are
read once at import time, but `group_read` overwrites both fields on every
call before they are observed. -/
structure StreamConsumerInfo where
  name : Str
  pending : Int
  lastAttempt : Nat
  lastSuccess : Nat
deriving DecidableEq

/-- `StreamGroup` state.  The back reference to the owning stream is replaced
by passing the stream's entry list to each operation; the PEL set is a
duplicate-free list. -/
structure StreamGroup where
  name : Str
  startKey : StreamEntryKey
  entriesRead : Option Int
  consumers : List (Str × StreamConsumerInfo)
  lastDeliveredKey : StreamEntryKey
  lastAckKey : StreamEntryKey
  pel : List StreamEntryKey
deriving DecidableEq

/-- `StreamGroup.__init__`. -/
def StreamGroup.new (name : Str) (startKey : StreamEntryKey) (entriesRead : Option Int) :
    StreamGroup :=
  ⟨name, startKey, entriesRead, [], startKey, startKey, []⟩

/-- Python `set.update` on the PEL: add each key not already present. -/
def pelUnion (p : List StreamEntryKey) (ks : List StreamEntryKey) : List StreamEntryKey :=
  ks.foldl (fun acc k => if k ∈ acc then acc else acc ++ [k]) p

/-- Overwrite the consumer's timestamps with `now` and add `n` to its pending
count (the tail of `StreamGroup.group_read`). -/
def updCons (cs : List (Str × StreamConsumerInfo)) (cn : Str) (now : Nat) (n : Nat) :
    List (Str × StreamConsumerInfo) :=
  cs.map fun p => if p.1 = cn then (p.1, ⟨p.2.name, p.2.pending + n, now, now⟩) else p

/-- `StreamGroup.group_read`, split so that the raw entries handed out are
available to the statements below; `StreamGroup.group_read` itself returns the
formatted records of exactly these items.  An unknown consumer is created
first, so a later `ValueError` from parsing `start_id` still leaves the new
consumer behind, as in Python. -/
def StreamGroup.group_read_aux (g : StreamGroup) (values : List StreamEntry)
    (consumerName : Str) (startId : Str) (count : Option Int) (noack : Bool) (now : Nat) :
    Except PyErr (List StreamEntry) × StreamGroup :=
  let consumers0 :=
    if (g.consumers.lookup consumerName).isSome then g.consumers
    else g.consumers ++ [(consumerName, ⟨consumerName, 0, now, now⟩)]
  let startKeyE : Except PyErr StreamEntryKey :=
    if startId = ['>'] then .ok g.lastDeliveredKey
    else
      match StreamEntryKey.parse_str startId with
      | none => .error .valueError
      | some k => .ok (kmax k g.lastDeliveredKey)
  match startKeyE with
  | .error e => (.error e, { g with consumers := consumers0 })
  | .ok startKey =>
    let items := streamReadV values startKey count
    let pel1 := if noack then g.pel else pelUnion g.pel (keysOf items)
    match (keysOf items).getLast? with
    | some lastK =>
      (.ok items,
       { g with pel := pel1,
                lastDeliveredKey := kmax g.lastDeliveredKey lastK,
                entriesRead := some (g.entriesRead.getD 0 + (items.length : Int)),
                consumers := updCons consumers0 consumerName now items.length })
    | none =>
      (.ok items,
       { g with pel := pel1, consumers := updCons consumers0 consumerName now items.length })

/-- `StreamGroup.group_read`. -/
def StreamGroup.group_read (g : StreamGroup) (values : List StreamEntry) (consumerName : Str)
    (startId : Str) (count : Option Int) (noack : Bool) (now : Nat) :
    Except PyErr (List (Str × List Str)) × StreamGroup :=
  let r := g.group_read_aux values consumerName startId count noack now
  (r.1.map (List.map StreamEntry.format_record), r.2)

/-- The lag computation inside `StreamGroup.group_info`.  In the first branch
Python subtracts the raw `entries_read`, so reaching it with
`entries_read = None` would raise `TypeError`; that branch is in fact
unreachable then, because the start index never exceeds the log length. -/
def StreamGroup.group_lag (g : StreamGroup) (values : List StreamEntry) : Except PyErr Int :=
  let si := (findIndexV values g.startKey true).1
  let ldi := (findIndexV values g.lastDeliveredKey true).1
  if (si : Int) + g.entriesRead.getD 0 > (values.length : Int) then
    match g.entriesRead with
    | some er => .ok ((values.length : Int) - (si : Int) - er)
    | none => .error .typeError
  else .ok ((values.length : Int) - 1 - (ldi : Int))

/-- Values appearing in a `group_info` summary: byte strings, integers, or
Python `None`. -/
inductive RVal
  | bs (v : Str)
  | iv (v : Int)
  | nv
deriving DecidableEq

/-- `StreamGroup.group_info`: the flattened alternating field/value list. -/
def StreamGroup.group_info (g : StreamGroup) (values : List StreamEntry) :
    Except PyErr (List RVal) :=
  let ldi := (findIndexV values g.lastDeliveredKey true).1
  let lai := (findIndexV values g.lastAckKey true).1
  match g.group_lag values with
  | .error e => .error e
  | .ok lag =>
    .ok [RVal.bs ['n', 'a', 'm', 'e'], RVal.bs g.name,
         RVal.bs ['c', 'o', 'n', 's', 'u', 'm', 'e', 'r', 's'],
         RVal.iv (g.consumers.length : Int),
         RVal.bs ['p', 'e', 'n', 'd', 'i', 'n', 'g'], RVal.iv ((ldi : Int) - (lai : Int)),
         RVal.bs ['l', 'a', 's', 't', '-', 'd', 'e', 'l', 'i', 'v', 'e', 'r', 'e', 'd', '-', 'i', 'd'],
         RVal.bs g.lastDeliveredKey.encode,
         RVal.bs ['e', 'n', 't', 'r', 'i', 'e', 's', '-', 'r', 'e', 'a', 'd'],
         (match g.entriesRead with | some e => RVal.iv e | none => RVal.nv),
         RVal.bs ['l', 'a', 'g'], RVal.iv lag]

/-- A stream mutation, for speaking about arbitrary operation sequences:
append, delete by keys, or trim. -/
inductive SOp
  | addOp (fields : List Str) (entryKey : Str) (now : Nat)
  | delOp (keys : List Str)
  | trimOp (maxLength : Option Int) (startEntryKey : Option Str) (limit : Option Int)

/-- Effect of one operation on the stream state (results and exceptions are
dropped; an operation that raises leaves exactly the state Python leaves). -/
def SOp.apply (st : XStream) : SOp → XStream
  | .addOp f k now => (st.add f k now).2
  | .delOp ks => (st.delete ks).2
  | .trimOp m s l => (st.trim m s l).2

/-- Run a sequence of operations from the empty stream. -/
def runOps (ops : List SOp) : XStream := ops.foldl SOp.apply emptyStream

/-- One group read with `start_id = ">"`, recorded with the group cursor
before the call, the keys returned and the PEL after the call. -/
structure ReadRecord where
  ldBefore : StreamEntryKey
  returned : List StreamEntryKey
  pelAfter : List StreamEntryKey
deriving DecidableEq

/-- A stream plus one consumer group over it, with the history of its
`">"`-reads. -/
structure GState where
  stream : XStream
  group : StreamGroup
  recs : List ReadRecord
deriving DecidableEq

/-- Appends interleaved with group reads of new messages
(`start_id = ">"`, `noack = false`). -/
inductive GOp
  | gadd (fields : List Str) (entryKey : Str) (now : Nat)
  | gread (consumer : Str) (count : Option Int) (now : Nat)

/-- Effect of one interleaved operation; reads are recorded. -/
def GOp.apply (s : GState) : GOp → GState
  | .gadd f k now => { s with stream := (s.stream.add f k now).2 }
  | .gread c cnt now =>
    let r := s.group.group_read_aux s.stream.values c ['>'] cnt false now
    let items := match r.1 with | .ok its => its | .error _ => []
    { s with group := r.2,
             recs := s.recs ++ [⟨s.group.lastDeliveredKey, keysOf items, r.2.pel⟩] }

/-- Run interleaved operations. -/
def runG (ops : List GOp) (s : GState) : GState := ops.foldl GOp.apply s

/-- Empty stream with one freshly created group over it. -/
def initG (startKey : StreamEntryKey) (entriesRead : Option Int) : GState :=
  ⟨emptyStream, StreamGroup.new ['g'] startKey entriesRead, []⟩

/-- Key lists sorted non-decreasingly (the invariant the stream maintains). -/
def KeysSorted (ks : List StreamEntryKey) : Prop :=
  List.Pairwise (fun a b => kLE a b = true) ks

/-- Key lists sorted strictly. -/
def KeysStrict (ks : List StreamEntryKey) : Prop :=
  List.Pairwise (fun a b => kLT a b = true) ks

instance (ks : List StreamEntryKey) : Decidable (KeysSorted ks) :=
  inferInstanceAs (Decidable (List.Pairwise (fun a b => kLE a b = true) ks))

instance (ks : List StreamEntryKey) : Decidable (KeysStrict ks) :=
  inferInstanceAs (Decidable (List.Pairwise (fun a b => kLT a b = true) ks))

/-- Strings of the shape the round-trip claims quantify over: non-empty and
all decimal digits. -/
def IsDigits (s : Str) : Prop := s ≠ [] ∧ ∀ c ∈ s, c.isDigit = true

instance : DecidablePred IsDigits := fun s => by unfold IsDigits; infer_instance

/-- The lag formula exactly as claim C4 states it: `entries_read` defaulted to 0
when unknown, the two indices taken as leftmost binary-search insertion points. -/
def lagClaimFormula (g : StreamGroup) (values : List StreamEntry) : Int :=
  let si := bisectLeft (keysOf values) g.startKey
  let ldi := bisectLeft (keysOf values) g.lastDeliveredKey
  if (si : Int) + g.entriesRead.getD 0 > (values.length : Int) then
    (values.length : Int) - (si : Int) - g.entriesRead.getD 0
  else (values.length : Int) - 1 - (ldi : Int)

/-- The invariant carried along a trace of appends and `">"`-reads: every
recorded read returned only keys above its starting cursor, put them in the
PEL, all recorded keys stay at or below the group cursor, and no two records
share a key. -/
def InvP (s : GState) : Prop :=
  (∀ rec ∈ s.recs, ∀ k ∈ rec.returned, kLT rec.ldBefore k = true ∧ k ∈ rec.pelAfter) ∧
  (∀ rec ∈ s.recs, ∀ k ∈ rec.returned, kLE k s.group.lastDeliveredKey = true) ∧
  List.Pairwise (fun r1 r2 => ∀ k ∈ r2.returned, k ∉ r1.returned) s.recs

/-- Decidable equality for `Except` results, so that concrete runs can be
checked by `decide`. -/
instance {e a : Type} [DecidableEq e] [DecidableEq a] : DecidableEq (Except e a) := fun x y =>
  match x, y with
  | .error e1, .error e2 => decidable_of_iff (e1 = e2) (by simp)
  | .error _, .ok _ => isFalse fun h => Except.noConfusion h
  | .ok _, .error _ => isFalse fun h => Except.noConfusion h
  | .ok v1, .ok v2 => decidable_of_iff (v1 = v2) (by simp)

/-- One-entry stream holding key `5-0`, reached from the empty stream by one
append; used as the concrete input of several statements below. -/
def stA : XStream := (emptyStream.add [['a'], ['1']] ['5', '-', '0'] 0).2

/-- Three-entry sorted stream with keys `1-1`, `2-2`, `3-3`. -/
def st3 : XStream :=
  ⟨[⟨⟨1, 1⟩, []⟩, ⟨⟨2, 2⟩, []⟩, ⟨⟨3, 3⟩, []⟩], ⟨0, 0⟩, 3⟩

/-- Two appends of the same explicit key `5-0` from the empty log. -/
def c2ops : List SOp :=
  [SOp.addOp [['a'], ['1']] ['5', '-', '0'] 0, SOp.addOp [['a'], ['1']] ['5', '-', '0'] 0]

/-- Canonical zero-padding-free `ts-seq` byte string of a key value, written
from the spec's words to state the round-trip claim C6. -/
def canonicalKeyStr (ts seq : Nat) : Str := natDigits ts ++ '-' :: natDigits seq

/-- Appends of `5-0` twice (the second a duplicate), interleaved with two
group reads of new messages. -/
def c5ops : List GOp :=
  [GOp.gadd [['a'], ['1']] ['5', '-', '0'] 0, GOp.gread ['c'] none 0,
   GOp.gadd [['a'], ['1']] ['5', '-', '0'] 0, GOp.gread ['c'] none 0]

/-- Strictly increasing variant of the same trace. -/
def c5wops : List GOp :=
  [GOp.gadd [['a'], ['1']] ['5', '-', '0'] 0, GOp.gread ['c'] none 0,
   GOp.gadd [['a'], ['1']] ['6', '-', '0'] 0, GOp.gread ['c'] none 0]

theorem kLT_iff (a b : StreamEntryKey) :
    kLT a b = true ↔ a.ts < b.ts ∨ (a.ts = b.ts ∧ a.seq < b.seq) := by
  simp [kLT]

theorem kLT_eq_false_iff (a b : StreamEntryKey) :
    kLT a b = false ↔ ¬(a.ts < b.ts ∨ (a.ts = b.ts ∧ a.seq < b.seq)) := by
  rw [← kLT_iff]; simp

theorem kLE_iff (a b : StreamEntryKey) :
    kLE a b = true ↔ a.ts < b.ts ∨ (a.ts = b.ts ∧ a.seq ≤ b.seq) := by
  simp only [kLE, Bool.not_eq_true', kLT_eq_false_iff]
  constructor <;> (intro h; omega)

theorem kLE_refl (a : StreamEntryKey) : kLE a a = true := by
  rw [kLE_iff]; omega

theorem kLE_trans {a b c : StreamEntryKey} (h1 : kLE a b = true) (h2 : kLE b c = true) :
    kLE a c = true := by
  rw [kLE_iff] at *; omega

theorem kLT_of_kLE_of_kLT {a b c : StreamEntryKey} (h1 : kLE a b = true)
    (h2 : kLT b c = true) : kLT a c = true := by
  rw [kLE_iff] at h1; rw [kLT_iff] at *; omega

theorem kLT_of_kLT_of_kLE {a b c : StreamEntryKey} (h1 : kLT a b = true)
    (h2 : kLE b c = true) : kLT a c = true := by
  rw [kLE_iff] at h2; rw [kLT_iff] at *; omega

theorem kLE_of_kLT {a b : StreamEntryKey} (h : kLT a b = true) : kLE a b = true := by
  rw [kLT_iff] at h; rw [kLE_iff]; omega

theorem kLE_of_not_kLT {a b : StreamEntryKey} (h : kLT a b = false) : kLE b a = true := by
  simp [kLE, h]

theorem kLT_irrefl (a : StreamEntryKey) : kLT a a = false := by
  rw [kLT_eq_false_iff]; omega

theorem kLT_asymm {a b : StreamEntryKey} (h1 : kLT a b = true) (h2 : kLE b a = true) : False := by
  rw [kLT_iff] at h1; rw [kLE_iff] at h2; omega

theorem eq_of_not_kLT_of_not_kLT {a b : StreamEntryKey} (h1 : kLT a b = false)
    (h2 : kLT b a = false) : a = b := by
  rw [kLT_eq_false_iff] at h1 h2
  have hts : a.ts = b.ts := by omega
  have hseq : a.seq = b.seq := by omega
  cases a; cases b; simp_all

theorem digitChar_isDigit (n : Nat) : (digitChar n).isDigit = true := by
  unfold digitChar; split <;> decide

theorem digitChar_toNat (n : Nat) (h : n < 10) : (digitChar n).toNat - 48 = n := by
  interval_cases n <;> decide

theorem digitsVal_append_singleton (l : List Char) (c : Char) :
    digitsVal (l ++ [c]) = 10 * digitsVal l + (c.toNat - 48) := by
  simp [digitsVal, List.foldl_append]

theorem natDigitsGo_spec : ∀ fuel n, n < fuel →
    natDigitsGo fuel n ≠ [] ∧ (∀ c ∈ natDigitsGo fuel n, c.isDigit = true) ∧
    digitsVal (natDigitsGo fuel n) = n := by
  intro fuel
  induction fuel with
  | zero => intro n h; omega
  | succ fuel ih =>
    intro n h
    by_cases h10 : n < 10
    · rw [natDigitsGo]
      simp only [h10, if_pos]
      refine ⟨by simp, ?_, ?_⟩
      · intro c hc
        simp at hc
        subst hc
        exact digitChar_isDigit n
      · show digitsVal ([] ++ [digitChar n]) = n
        rw [digitsVal_append_singleton, digitChar_toNat n h10]
        simp [digitsVal]
    · have hd : n / 10 < fuel := by
        have := Nat.div_lt_self (show 0 < n by omega) (show 1 < 10 by omega)
        omega
      obtain ⟨h1, h2, h3⟩ := ih (n / 10) hd
      rw [natDigitsGo]
      simp only [h10, if_neg, if_false]
      refine ⟨by simp, ?_, ?_⟩
      · intro c hc
        rw [List.mem_append] at hc
        rcases hc with hc | hc
        · exact h2 c hc
        · simp at hc
          subst hc
          exact digitChar_isDigit (n % 10)
      · rw [digitsVal_append_singleton, h3, digitChar_toNat (n % 10) (Nat.mod_lt n (by omega))]
        omega

theorem natDigits_spec (n : Nat) :
    natDigits n ≠ [] ∧ (∀ c ∈ natDigits n, c.isDigit = true) ∧ digitsVal (natDigits n) = n :=
  natDigitsGo_spec (n + 1) n (Nat.lt_succ_self n)

theorem isDigits_natDigits (n : Nat) : IsDigits (natDigits n) :=
  ⟨(natDigits_spec n).1, (natDigits_spec n).2.1⟩

theorem strToNat?_isDigits {s : Str} (h : IsDigits s) : strToNat? s = some (digitsVal s) := by
  have h1 : s.isEmpty = false := by
    cases s with
    | nil => exact absurd rfl h.1
    | cons a l => rfl
  have h2 : s.all Char.isDigit = true := by
    rw [List.all_eq_true]
    exact h.2
  simp [strToNat?, h1, h2]

theorem strToNat?_natDigits (n : Nat) : strToNat? (natDigits n) = some n := by
  rw [strToNat?_isDigits (isDigits_natDigits n), (natDigits_spec n).2.2]

theorem isDigits_no_dash {s : Str} (h : IsDigits s) : ∀ c ∈ s, c ≠ '-' := by
  intro c hc he
  have := h.2 c hc
  rw [he] at this
  exact absurd this (by decide)

theorem splitChar_ne_nil (sep : Char) (s : Str) : splitChar sep s ≠ [] := by
  cases s with
  | nil => simp [splitChar]
  | cons c rest =>
    rw [splitChar]
    rcases h : splitChar sep rest with _ | ⟨r, rs⟩
    · simp
    · by_cases hc : c = sep <;> simp [hc]

theorem splitChar_no_sep (sep : Char) (s : Str) (h : ∀ c ∈ s, c ≠ sep) :
    splitChar sep s = [s] := by
  induction s with
  | nil => rfl
  | cons c rest ih =>
    have hc : c ≠ sep := h c (by simp)
    have hr : splitChar sep rest = [rest] := ih fun x hx => h x (by simp [hx])
    rw [splitChar, hr]
    simp [hc]

theorem splitChar_append (sep : Char) (a rest : Str) (h : ∀ c ∈ a, c ≠ sep) :
    splitChar sep (a ++ sep :: rest) = a :: splitChar sep rest := by
  induction a with
  | nil =>
    simp only [List.nil_append]
    rw [splitChar]
    rcases hr : splitChar sep rest with _ | ⟨r, rs⟩
    · exact absurd hr (splitChar_ne_nil sep rest)
    · simp
  | cons c a' ih =>
    have hc : c ≠ sep := h c (by simp)
    have hr := ih fun x hx => h x (by simp [hx])
    simp only [List.cons_append]
    rw [splitChar, hr]
    simp [hc]

theorem parse_str_digits {d : Str} (h : IsDigits d) :
    StreamEntryKey.parse_str d = some ⟨digitsVal d, 0⟩ := by
  rw [StreamEntryKey.parse_str, splitChar_no_sep '-' d (isDigits_no_dash h)]
  simp [strToNat?_isDigits h]

theorem parse_str_two {d1 d2 : Str} (h1 : IsDigits d1) (h2 : IsDigits d2) :
    StreamEntryKey.parse_str (d1 ++ '-' :: d2) = some ⟨digitsVal d1, digitsVal d2⟩ := by
  rw [StreamEntryKey.parse_str, splitChar_append '-' d1 d2 (isDigits_no_dash h1),
    splitChar_no_sep '-' d2 (isDigits_no_dash h2)]
  simp [strToNat?_isDigits h1, strToNat?_isDigits h2]

theorem parse_str_many {d1 d2 rest : Str} (h1 : IsDigits d1) (h2 : IsDigits d2) :
    StreamEntryKey.parse_str (d1 ++ '-' :: (d2 ++ '-' :: rest)) =
      some ⟨digitsVal d1, digitsVal d2⟩ := by
  rw [StreamEntryKey.parse_str, splitChar_append '-' d1 (d2 ++ '-' :: rest) (isDigits_no_dash h1),
    splitChar_append '-' d2 rest (isDigits_no_dash h2)]
  rcases hr : splitChar '-' rest with _ | ⟨r, rs⟩
  · exact absurd hr (splitChar_ne_nil '-' rest)
  · simp [strToNat?_isDigits h1, strToNat?_isDigits h2]

theorem KeysStrict.toSorted {ks : List StreamEntryKey} (h : KeysStrict ks) : KeysSorted ks :=
  h.imp fun hab => kLE_of_kLT hab

theorem KeysSorted.le_getD {ks : List StreamEntryKey} (h : KeysSorted ks) {i j : Nat}
    (hij : i ≤ j) (hj : j < ks.length) :
    kLE (ks.getD i ⟨0, 0⟩) (ks.getD j ⟨0, 0⟩) = true := by
  rcases Nat.eq_or_lt_of_le hij with rfl | hlt
  · exact kLE_refl _
  · have hi : i < ks.length := Nat.lt_trans hlt hj
    rw [List.getD_eq_getElem ks _ hi, List.getD_eq_getElem ks _ hj]
    exact List.pairwise_iff_getElem.mp h i j hi hj hlt

theorem KeysStrict.lt_getD {ks : List StreamEntryKey} (h : KeysStrict ks) {i j : Nat}
    (hij : i < j) (hj : j < ks.length) :
    kLT (ks.getD i ⟨0, 0⟩) (ks.getD j ⟨0, 0⟩) = true := by
  have hi : i < ks.length := Nat.lt_trans hij hj
  rw [List.getD_eq_getElem ks _ hi, List.getD_eq_getElem ks _ hj]
  exact List.pairwise_iff_getElem.mp h i j hi hj hij

theorem bisectLeftGo_le (l : List StreamEntryKey) (x : StreamEntryKey) :
    ∀ fuel lo hi, lo ≤ hi → bisectLeftGo l x fuel lo hi ≤ hi := by
  intro fuel
  induction fuel with
  | zero => intro lo hi h; exact h
  | succ fuel ih =>
    intro lo hi h
    rw [bisectLeftGo]
    dsimp only
    split
    · rename_i hlt
      split
      · exact ih _ _ (by omega)
      · exact Nat.le_trans (ih _ _ (by omega)) (by omega)
    · exact h

theorem bisectLeftGo_main {ks : List StreamEntryKey} (hs : KeysSorted ks) (x : StreamEntryKey) :
    ∀ fuel lo hi, hi - lo ≤ fuel → lo ≤ hi → hi ≤ ks.length →
      (∀ j, j < lo → kLT (ks.getD j ⟨0, 0⟩) x = true) →
      (∀ j, hi ≤ j → j < ks.length → kLT (ks.getD j ⟨0, 0⟩) x = false) →
      (∀ j, j < bisectLeftGo ks x fuel lo hi → kLT (ks.getD j ⟨0, 0⟩) x = true) ∧
      (∀ j, bisectLeftGo ks x fuel lo hi ≤ j → j < ks.length →
        kLT (ks.getD j ⟨0, 0⟩) x = false) := by
  intro fuel
  induction fuel with
  | zero =>
    intro lo hi hf hlh hhl hpre hpost
    have : lo = hi := by omega
    subst this
    exact ⟨fun j hj => hpre j hj, fun j hj hjl => hpost j hj hjl⟩
  | succ fuel ih =>
    intro lo hi hf hlh hhl hpre hpost
    rw [bisectLeftGo]
    dsimp only
    split
    · rename_i hlt
      have hmid1 : lo ≤ (lo + hi) / 2 := by omega
      have hmid2 : (lo + hi) / 2 < hi := by omega
      split
      · rename_i hk
        refine ih ((lo + hi) / 2 + 1) hi (by omega) (by omega) hhl ?_ hpost
        intro j hj
        by_cases hjlo : j < lo
        · exact hpre j hjlo
        · exact kLT_of_kLE_of_kLT (hs.le_getD (by omega) (by omega)) hk
      · rename_i hk
        have hk' : kLT (ks.getD ((lo + hi) / 2) ⟨0, 0⟩) x = false := by
          cases h : kLT (ks.getD ((lo + hi) / 2) ⟨0, 0⟩) x
          · rfl
          · exact absurd h hk
        refine ih lo ((lo + hi) / 2) (by omega) (by omega) (by omega) hpre ?_
        intro j hj hjl
        by_cases hjhi : hi ≤ j
        · exact hpost j hjhi hjl
        · cases h2 : kLT (ks.getD j ⟨0, 0⟩) x
          · rfl
          · have := kLT_of_kLE_of_kLT (hs.le_getD hj hjl) h2
            rw [this] at hk'
            exact absurd hk' (by simp)
    · rename_i hlt
      have : lo = hi := by omega
      subst this
      exact ⟨fun j hj => hpre j hj, fun j hj hjl => hpost j hj hjl⟩

theorem bisectLeft_spec {ks : List StreamEntryKey} (hs : KeysSorted ks) (x : StreamEntryKey) :
    (∀ j, j < bisectLeft ks x → kLT (ks.getD j ⟨0, 0⟩) x = true) ∧
    (∀ j, bisectLeft ks x ≤ j → j < ks.length → kLT (ks.getD j ⟨0, 0⟩) x = false) ∧
    bisectLeft ks x ≤ ks.length := by
  obtain ⟨h1, h2⟩ := bisectLeftGo_main hs x ks.length 0 ks.length (by omega) (by omega)
    (by omega) (fun j hj => absurd hj (by omega)) (fun j hj hjl => absurd hjl (by omega))
  exact ⟨h1, h2, bisectLeftGo_le ks x ks.length 0 ks.length (by omega)⟩

theorem takeWhile_char {α : Type} (p : α → Bool) (l : List α) (d : α) :
    (∀ j, j < (l.takeWhile p).length → p (l.getD j d) = true) ∧
    ((l.takeWhile p).length < l.length → p (l.getD (l.takeWhile p).length d) = false) ∧
    (l.takeWhile p).length ≤ l.length := by
  induction l with
  | nil => simp
  | cons a t ih =>
    obtain ⟨i1, i2, i3⟩ := ih
    cases hp : p a
    · simp only [List.takeWhile_cons, hp, Bool.false_eq_true, if_false]
      refine ⟨fun j hj => absurd hj (by simp), ?_, by simp⟩
      intro hlen
      simpa using hp
    · simp only [List.takeWhile_cons, hp, if_true]
      refine ⟨?_, ?_, by simpa using i3⟩
      · intro j hj
        cases j with
        | zero => simpa using hp
        | succ j =>
          rw [List.getD_cons_succ]
          exact i1 j (by simpa using hj)
      · intro hlen
        rw [List.length_cons, List.getD_cons_succ]
        exact i2 (by simpa using hlen)

theorem bisectLeft_eq_takeWhile {ks : List StreamEntryKey} (hs : KeysSorted ks)
    (x : StreamEntryKey) :
    bisectLeft ks x = (ks.takeWhile fun a => kLT a x).length := by
  obtain ⟨b1, b2, b3⟩ := bisectLeft_spec hs x
  obtain ⟨t1, t2, t3⟩ := takeWhile_char (fun a => kLT a x) ks ⟨0, 0⟩
  rcases Nat.lt_trichotomy (bisectLeft ks x) ((ks.takeWhile fun a => kLT a x).length)
    with h | h | h
  · have ht := t1 _ h
    have hb := b2 _ (Nat.le_refl _) (Nat.lt_of_lt_of_le h t3)
    rw [ht] at hb
    exact absurd hb (by simp)
  · exact h
  · have hb := b1 _ h
    have ht := t2 (Nat.lt_of_lt_of_le h b3)
    rw [hb] at ht
    exact absurd ht (by simp)

theorem keysOf_length (l : List StreamEntry) : (keysOf l).length = l.length := by
  simp [keysOf]

theorem keysOf_append (l1 l2 : List StreamEntry) :
    keysOf (l1 ++ l2) = keysOf l1 ++ keysOf l2 := by
  simp [keysOf]

theorem keysOf_getD (values : List StreamEntry) (i : Nat) :
    (values.getD i ⟨⟨0, 0⟩, []⟩).key = (keysOf values).getD i ⟨0, 0⟩ := by
  by_cases h : i < values.length
  · rw [List.getD_eq_getElem _ _ h,
      List.getD_eq_getElem _ _ (show i < (keysOf values).length by rw [keysOf_length]; exact h)]
    simp [keysOf]
  · rw [List.getD_eq_default _ _ (by omega),
      List.getD_eq_default _ _ (by rw [keysOf_length]; omega)]

theorem bisectLeft_le_length (ks : List StreamEntryKey) (x : StreamEntryKey) :
    bisectLeft ks x ≤ ks.length :=
  bisectLeftGo_le ks x ks.length 0 ks.length (by omega)

theorem findIndexV_fst (values : List StreamEntry) (k : StreamEntryKey) :
    (findIndexV values k true).1 = bisectLeft (keysOf values) k := by
  rw [findIndexV]
  split
  · rename_i h
    have : values = [] := List.length_eq_zero.mp h
    subst this
    rfl
  · rfl

theorem findIndexV_fst_le (values : List StreamEntry) (k : StreamEntryKey) :
    (findIndexV values k true).1 ≤ values.length := by
  rw [findIndexV_fst]
  have := bisectLeft_le_length (keysOf values) k
  rwa [keysOf_length] at this

theorem findIndexV_eq (values : List StreamEntry) (k : StreamEntryKey) :
    findIndexV values k true =
      (bisectLeft (keysOf values) k,
       decide (bisectLeft (keysOf values) k < values.length) &&
         ((values.getD (bisectLeft (keysOf values) k) ⟨⟨0, 0⟩, []⟩).key == k)) := by
  rw [findIndexV]
  split
  · rename_i h
    have : values = [] := List.length_eq_zero.mp h
    subst this
    rfl
  · rfl

theorem kLT_of_kLE_of_ne {a b : StreamEntryKey} (h1 : kLE a b = true) (h2 : a ≠ b) :
    kLT a b = true := by
  cases h : kLT a b
  · have hba : kLT b a = false := by
      simp [kLE] at h1
      exact h1
    exact absurd (eq_of_not_kLT_of_not_kLT h hba) h2
  · rfl

theorem mem_pySlice_nat {α : Type} {l : List α} {s : Nat} {j : Int} {e : α}
    (h : e ∈ pySlice l (s : Int) j) : ∃ i, s ≤ i ∧ ∃ hi : i < l.length, l[i] = e := by
  rw [pySlice] at h
  have hs : ¬((s : Int) < 0) := by omega
  simp only [hs, if_neg, if_false, Int.toNat_natCast] at h
  obtain ⟨i, hi, hie⟩ := List.mem_iff_getElem.mp h
  have hlen : i < (l.take (if j < 0 then (l.length : Int) + j else j).toNat).length - s := by
    simpa [List.length_drop] using hi
  have hlen2 : (l.take (if j < 0 then (l.length : Int) + j else j).toNat).length ≤ l.length := by
    simp [List.length_take]
  refine ⟨s + i, by omega, by omega, ?_⟩
  rw [List.getElem_drop] at hie
  rwa [List.getElem_take] at hie

theorem kLT_trans {a b c : StreamEntryKey} (h1 : kLT a b = true) (h2 : kLT b c = true) :
    kLT a c = true :=
  kLT_of_kLT_of_kLE h1 (kLE_of_kLT h2)

theorem mem_drop_getElem {α : Type} {l : List α} {n : Nat} {e : α} (h : e ∈ l.drop n) :
    ∃ j, n ≤ j ∧ ∃ hj : j < l.length, l[j] = e := by
  obtain ⟨i, hi, hie⟩ := List.mem_iff_getElem.mp h
  have hlen : i < l.length - n := by simpa [List.length_drop] using hi
  refine ⟨n + i, by omega, by omega, ?_⟩
  rwa [List.getElem_drop] at hie

theorem mem_pySlice_mem_drop {α : Type} {l : List α} {s : Nat} {j : Int} {e : α}
    (h : e ∈ pySlice l (s : Int) j) : e ∈ l.drop s := by
  obtain ⟨i, hsi, hi, hie⟩ := mem_pySlice_nat h
  have h1 : i - s < (l.drop s).length := by
    rw [List.length_drop]
    omega
  have h2 : (l.drop s)[i - s] = l[i] := by
    rw [List.getElem_drop]
    congr 1
    omega
  rw [← hie, ← h2]
  exact List.getElem_mem h1

theorem keysSorted_le_getLast : ∀ {ks : List StreamEntryKey}, KeysSorted ks →
    ∀ {z : StreamEntryKey}, ks.getLast? = some z → ∀ a ∈ ks, kLE a z = true := by
  intro ks
  induction ks with
  | nil => intro _ z hz; simp at hz
  | cons a t ih =>
    intro h z hz b hb
    cases t with
    | nil =>
      simp at hz hb
      subst hz
      subst hb
      exact kLE_refl _
    | cons c t' =>
      rw [List.getLast?_cons_cons] at hz
      rcases List.mem_cons.mp hb with rfl | hb'
      · have hzmem : z ∈ c :: t' := List.mem_of_getLast?_eq_some hz
        exact (List.pairwise_cons.mp h).1 z hzmem
      · exact ih (List.pairwise_cons.mp h).2 hz b hb'

theorem si_le_index_gt {values : List StreamEntry} (hs : KeysStrict (keysOf values))
    (startKey : StreamEntryKey) {j : Nat}
    (hsij : (if (findIndexV values startKey true).2 then (findIndexV values startKey true).1 + 1
      else (findIndexV values startKey true).1) ≤ j)
    (hj : j < values.length) :
    kLT startKey ((keysOf values).getD j ⟨0, 0⟩) = true := by
  obtain ⟨b1, b2, b3⟩ := bisectLeft_spec hs.toSorted startKey
  rw [findIndexV_eq] at hsij
  dsimp only at hsij
  by_cases hb : (decide (bisectLeft (keysOf values) startKey < values.length) &&
      ((values.getD (bisectLeft (keysOf values) startKey) ⟨⟨0, 0⟩, []⟩).key == startKey)) = true
  · rw [if_pos hb] at hsij
    rw [Bool.and_eq_true, decide_eq_true_iff, beq_iff_eq] at hb
    obtain ⟨hrlen, hrkey⟩ := hb
    have hstep : kLT ((keysOf values).getD (bisectLeft (keysOf values) startKey) ⟨0, 0⟩)
        ((keysOf values).getD j ⟨0, 0⟩) = true :=
      hs.lt_getD (by omega) (by rw [keysOf_length]; omega)
    rw [keysOf_getD] at hrkey
    rwa [hrkey] at hstep
  · rw [if_neg hb] at hsij
    rw [Bool.and_eq_true, decide_eq_true_iff, beq_iff_eq] at hb
    push_neg at hb
    have hrlen : bisectLeft (keysOf values) startKey < values.length := by omega
    have hrne : (values.getD (bisectLeft (keysOf values) startKey) ⟨⟨0, 0⟩, []⟩).key ≠ startKey :=
      hb hrlen
    have hler : kLT ((keysOf values).getD (bisectLeft (keysOf values) startKey) ⟨0, 0⟩)
        startKey = false :=
      b2 _ (Nat.le_refl _) (by rw [keysOf_length]; omega)
    have hgt : kLT startKey ((keysOf values).getD (bisectLeft (keysOf values) startKey) ⟨0, 0⟩)
        = true := by
      refine kLT_of_kLE_of_ne (kLE_of_not_kLT hler) ?_
      rw [← keysOf_getD]
      exact fun hEq => hrne hEq.symm
    rcases Nat.eq_or_lt_of_le hsij with rfl | hjr
    · exact hgt
    · exact kLT_trans hgt (hs.lt_getD hjr (by rw [keysOf_length]; omega))

theorem streamReadV_mem_gt {values : List StreamEntry} (hs : KeysStrict (keysOf values))
    {startKey : StreamEntryKey} {count : Option Int} {e : StreamEntry}
    (he : e ∈ streamReadV values startKey count) : kLT startKey e.key = true := by
  rw [streamReadV.eq_def] at he
  dsimp only at he
  cases hb : (findIndexV values startKey true).2 <;> rw [hb] at he
  · simp only [Bool.false_eq_true, if_false] at he
    split at he
    · simp at he
    · obtain ⟨i, hsi, hilen, hie⟩ := mem_pySlice_nat he
      have hkey : e.key = (keysOf values).getD i ⟨0, 0⟩ := by
        rw [← hie, ← keysOf_getD, List.getD_eq_getElem _ _ hilen]
      rw [hkey]
      refine si_le_index_gt hs startKey ?_ hilen
      rw [if_neg (by simp [hb])]
      exact hsi
  · simp only [if_true] at he
    split at he
    · simp at he
    · obtain ⟨i, hsi, hilen, hie⟩ := mem_pySlice_nat he
      have hkey : e.key = (keysOf values).getD i ⟨0, 0⟩ := by
        rw [← hie, ← keysOf_getD, List.getD_eq_getElem _ _ hilen]
      rw [hkey]
      refine si_le_index_gt hs startKey ?_ hilen
      rw [if_pos hb]
      exact hsi

theorem streamReadV_sublist (values : List StreamEntry) (startKey : StreamEntryKey)
    (count : Option Int) : (streamReadV values startKey count).Sublist values := by
  rw [streamReadV.eq_def]
  dsimp only
  split <;> split
  · exact List.nil_sublist values
  · rw [pySlice]
    exact (List.drop_sublist _ _).trans (List.take_sublist _ _)
  · exact List.nil_sublist values
  · rw [pySlice]
    exact (List.drop_sublist _ _).trans (List.take_sublist _ _)

theorem XStream.add_values_cases (st : XStream) (fields : List Str) (ek : Str) (now : Nat) :
    (st.add fields ek now).2 = st ∨
    ∃ k, (st.add fields ek now).1 = .ok (some k.encode) ∧
      (st.add fields ek now).2.values = st.values ++ [⟨k, fields⟩] ∧
      (st.add fields ek now).2.maxDeletedId = st.maxDeletedId ∧
      (st.add fields ek now).2.entriesAdded = st.entriesAdded + 1 ∧
      ((keysOf st.values).getLast? = none ∨
       ∃ last, (keysOf st.values).getLast? = some last ∧ kLE last k = true) := by
  rw [XStream.add]
  split
  · exact Or.inl rfl
  · rcases hres : st.resolveKey ek now with e | ko
    · exact Or.inl rfl
    · rcases ko with _ | k
      · exact Or.inl rfl
      · rcases hlast : (keysOf st.values).getLast? with _ | last
        · dsimp only
          exact Or.inr ⟨k, rfl, rfl, rfl, rfl, Or.inl rfl⟩
        · dsimp only
          by_cases hlt : kLT k last = true
          · rw [if_pos hlt]
            exact Or.inl rfl
          · rw [if_neg hlt]
            exact Or.inr ⟨k, rfl, rfl, rfl, rfl,
              Or.inr ⟨last, rfl, kLE_of_not_kLT (by simpa using hlt)⟩⟩

theorem add_preserves_sorted {st : XStream} {fields : List Str} {ek : Str} {now : Nat}
    (h : KeysSorted (keysOf st.values)) :
    KeysSorted (keysOf (st.add fields ek now).2.values) := by
  rcases XStream.add_values_cases st fields ek now with heq | ⟨k, _, hv, _, _, hlast⟩
  · rw [heq]
    exact h
  · rw [hv, keysOf_append]
    rw [KeysSorted, List.pairwise_append]
    refine ⟨h, by simp [keysOf], ?_⟩
    intro a ha b hb
    have hbk : b = k := by simpa [keysOf] using hb
    subst hbk
    rcases hlast with hnone | ⟨last, hl, hle⟩
    · rw [List.getLast?_eq_none_iff] at hnone
      rw [hnone] at ha
      simp at ha
    · exact kLE_trans (keysSorted_le_getLast h hl a ha) hle

theorem deleteGo_state : ∀ (lst : List Str) (st : XStream) (res : Int),
    ((deleteGo st res lst).2.values).Sublist st.values ∧
    (deleteGo st res lst).2.entriesAdded = st.entriesAdded := by
  intro lst
  induction lst with
  | nil => intro st res; exact ⟨List.Sublist.refl _, rfl⟩
  | cons item rest ih =>
    intro st res
    rw [deleteGo]
    rcases hfind : st.find_index_key_as_str item with _ | ⟨ind, found⟩
    · exact ⟨List.Sublist.refl _, rfl⟩
    · dsimp only
      cases found
      · simp only [Bool.false_eq_true, if_false]
        exact ih st res
      · simp only [if_true]
        rcases hget : st.values[ind]? with _ | e
        · exact ⟨List.Sublist.refl _, rfl⟩
        · obtain ⟨ihs, ihe⟩ := ih ⟨st.values.eraseIdx ind, kmax e.key st.maxDeletedId,
            st.entriesAdded⟩ (res + 1)
          exact ⟨ihs.trans (List.eraseIdx_sublist st.values ind), ihe⟩

theorem XStream.delete_state (st : XStream) (lst : List Str) :
    ((st.delete lst).2.values).Sublist st.values ∧
    (st.delete lst).2.entriesAdded = st.entriesAdded :=
  deleteGo_state lst st 0

theorem pySliceFrom_sublist {α : Type} (l : List α) (i : Int) : (pySliceFrom l i).Sublist l := by
  rw [pySliceFrom]
  exact List.drop_sublist _ _

theorem XStream.trim_state (st : XStream) (m : Option Int) (s : Option Str) (l : Option Int) :
    ((st.trim m s l).2.values).Sublist st.values ∧
    (st.trim m s l).2.entriesAdded = st.entriesAdded := by
  rw [XStream.trim.eq_def]
  rcases m with _ | mv <;> rcases s with _ | sv <;> dsimp only
  · exact ⟨List.Sublist.refl _, rfl⟩
  · rcases hfind : st.find_index_key_as_str sv with _ | ⟨ind, found⟩ <;> dsimp only
    · exact ⟨List.Sublist.refl _, rfl⟩
    · rw [trimFinish.eq_def]
      exact ⟨pySliceFrom_sublist _ _, rfl⟩
  · rw [trimFinish.eq_def]
    exact ⟨pySliceFrom_sublist _ _, rfl⟩
  · exact ⟨List.Sublist.refl _, rfl⟩

theorem sorted_of_sublist {l1 l2 : List StreamEntry} (h : l1.Sublist l2)
    (hs : KeysSorted (keysOf l2)) : KeysSorted (keysOf l1) :=
  List.Pairwise.sublist (h.map _) hs

theorem runOps_aux_sorted : ∀ (ops : List SOp) (st : XStream),
    KeysSorted (keysOf st.values) → KeysSorted (keysOf (ops.foldl SOp.apply st).values) := by
  intro ops
  induction ops with
  | nil => intro st h; exact h
  | cons op rest ih =>
    intro st h
    rw [List.foldl_cons]
    refine ih _ ?_
    cases op with
    | addOp f k now => exact add_preserves_sorted h
    | delOp ks => exact sorted_of_sublist (XStream.delete_state st ks).1 h
    | trimOp a b c => exact sorted_of_sublist (XStream.trim_state st a b c).1 h

theorem runOps_sorted (ops : List SOp) : KeysSorted (keysOf (runOps ops).values) :=
  runOps_aux_sorted ops emptyStream (by simp [emptyStream, keysOf, KeysSorted])

theorem pelUnion_mem (p ks : List StreamEntryKey) (k : StreamEntryKey) :
    k ∈ pelUnion p ks ↔ k ∈ p ∨ k ∈ ks := by
  induction ks generalizing p with
  | nil => simp [pelUnion]
  | cons a t ih =>
    rw [pelUnion, List.foldl_cons, ← pelUnion]
    rw [ih]
    by_cases ha : a ∈ p
    · rw [if_pos ha]
      simp only [List.mem_cons]
      constructor
      · rintro (h | h)
        · exact Or.inl h
        · exact Or.inr (Or.inr h)
      · rintro (h | h | h)
        · exact Or.inl h
        · exact Or.inl (h ▸ ha)
        · exact Or.inr h
    · rw [if_neg ha]
      simp only [List.mem_append, List.mem_cons, List.mem_singleton]
      tauto

theorem kLE_kmax_left (a b : StreamEntryKey) : kLE a (kmax a b) = true := by
  rw [kmax]
  split
  · rename_i h
    exact kLE_of_kLT h
  · exact kLE_refl a

theorem kLE_kmax_right (a b : StreamEntryKey) : kLE b (kmax a b) = true := by
  rw [kmax]
  split
  · exact kLE_refl b
  · rename_i h
    exact kLE_of_not_kLT (by simpa using h)

theorem streamReadV_keys_le_last {values : List StreamEntry} (hs : KeysStrict (keysOf values))
    {startKey : StreamEntryKey} {cnt : Option Int} {lastK : StreamEntryKey}
    (hl : (keysOf (streamReadV values startKey cnt)).getLast? = some lastK) :
    ∀ e ∈ streamReadV values startKey cnt, kLE e.key lastK = true := by
  intro e he
  have hsub : (keysOf (streamReadV values startKey cnt)).Sublist (keysOf values) :=
    (streamReadV_sublist values startKey cnt).map _
  have hsorted : KeysSorted (keysOf (streamReadV values startKey cnt)) :=
    List.Pairwise.sublist hsub hs.toSorted
  exact keysSorted_le_getLast hsorted hl e.key (List.mem_map_of_mem _ he)

theorem group_read_aux_spec {values : List StreamEntry} (hs : KeysStrict (keysOf values))
    (g : StreamGroup) (cn : Str) (cnt : Option Int) (now : Nat) :
    ∃ items g', g.group_read_aux values cn ['>'] cnt false now = (.ok items, g') ∧
      (∀ e ∈ items, kLT g.lastDeliveredKey e.key = true) ∧
      (∀ e ∈ items, e.key ∈ g'.pel) ∧
      (∀ x ∈ g.pel, x ∈ g'.pel) ∧
      kLE g.lastDeliveredKey g'.lastDeliveredKey = true ∧
      (∀ e ∈ items, kLE e.key g'.lastDeliveredKey = true) := by
  rw [StreamGroup.group_read_aux]
  dsimp only
  rw [if_pos rfl]
  dsimp only
  rcases hl : (keysOf (streamReadV values g.lastDeliveredKey cnt)).getLast? with _ | lastK
  · dsimp only
    refine ⟨_, _, rfl, ?_, ?_, ?_, ?_, ?_⟩
    · intro e he
      exact streamReadV_mem_gt hs he
    · intro e he
      rw [List.getLast?_eq_none_iff] at hl
      have : e.key ∈ keysOf (streamReadV values g.lastDeliveredKey cnt) :=
        List.mem_map_of_mem _ he
      rw [hl] at this
      simp at this
    · intro x hx
      dsimp only
      rw [if_neg (by simp)]
      rw [pelUnion_mem]
      exact Or.inl hx
    · exact kLE_refl _
    · intro e he
      rw [List.getLast?_eq_none_iff] at hl
      have : e.key ∈ keysOf (streamReadV values g.lastDeliveredKey cnt) :=
        List.mem_map_of_mem _ he
      rw [hl] at this
      simp at this
  · dsimp only
    refine ⟨_, _, rfl, ?_, ?_, ?_, ?_, ?_⟩
    · intro e he
      exact streamReadV_mem_gt hs he
    · intro e he
      dsimp only
      rw [if_neg (by simp)]
      rw [pelUnion_mem]
      exact Or.inr (List.mem_map_of_mem _ he)
    · intro x hx
      dsimp only
      rw [if_neg (by simp)]
      rw [pelUnion_mem]
      exact Or.inl hx
    · exact kLE_kmax_left _ _
    · intro e he
      exact kLE_trans (streamReadV_keys_le_last hs hl e he) (kLE_kmax_right _ _)

theorem GOp.apply_stream_values (s : GState) (op : GOp) :
    ∃ suf, (GOp.apply s op).stream.values = s.stream.values ++ suf := by
  cases op with
  | gadd f k now =>
    rcases XStream.add_values_cases s.stream f k now with heq | ⟨kk, _, hv, _, _, _⟩
    · exact ⟨[], by simp [GOp.apply, heq]⟩
    · exact ⟨[⟨kk, f⟩], by simp [GOp.apply, hv]⟩
  | gread c cnt now => exact ⟨[], by simp [GOp.apply]⟩

theorem runG_values_ext : ∀ (ops : List GOp) (s : GState),
    ∃ suf, (runG ops s).stream.values = s.stream.values ++ suf := by
  intro ops
  induction ops with
  | nil => intro s; exact ⟨[], by simp [runG]⟩
  | cons op rest ih =>
    intro s
    obtain ⟨suf1, h1⟩ := GOp.apply_stream_values s op
    obtain ⟨suf2, h2⟩ := ih (GOp.apply s op)
    refine ⟨suf1 ++ suf2, ?_⟩
    rw [runG, List.foldl_cons, ← runG, h2, h1, List.append_assoc]

theorem InvP_gadd {s : GState} (h : InvP s) (f : List Str) (k : Str) (now : Nat) :
    InvP (GOp.apply s (.gadd f k now)) := by
  obtain ⟨h1, h2, h3⟩ := h
  exact ⟨h1, h2, h3⟩

theorem InvP_gread {s : GState} (hsorted : KeysStrict (keysOf s.stream.values))
    (h : InvP s) (c : Str) (cnt : Option Int) (now : Nat) :
    InvP (GOp.apply s (.gread c cnt now)) := by
  obtain ⟨h1, h2, h3⟩ := h
  obtain ⟨items, g', heq, hgt, hpel, hpelold, hldmono, hle⟩ :=
    group_read_aux_spec hsorted s.group c cnt now
  rw [GOp.apply, heq]
  dsimp only
  refine ⟨?_, ?_, ?_⟩
  · intro rec hrec k hk
    rcases List.mem_append.mp hrec with hold | hnew
    · exact h1 rec hold k hk
    · have : rec = ⟨s.group.lastDeliveredKey, keysOf items, g'.pel⟩ := by simpa using hnew
      subst this
      obtain ⟨e, he, hek⟩ := List.mem_map.mp hk
      subst hek
      exact ⟨hgt e he, hpel e he⟩
  · intro rec hrec k hk
    rcases List.mem_append.mp hrec with hold | hnew
    · exact kLE_trans (h2 rec hold k hk) hldmono
    · have : rec = ⟨s.group.lastDeliveredKey, keysOf items, g'.pel⟩ := by simpa using hnew
      subst this
      obtain ⟨e, he, hek⟩ := List.mem_map.mp hk
      subst hek
      exact hle e he
  · rw [List.pairwise_append]
    refine ⟨h3, by simp, ?_⟩
    intro r1 hr1 r2 hr2
    have hr2' : r2 = ⟨s.group.lastDeliveredKey, keysOf items, g'.pel⟩ := by simpa using hr2
    subst hr2'
    intro k hk hk1
    obtain ⟨e, he, hek⟩ := List.mem_map.mp hk
    subst hek
    exact kLT_asymm (hgt e he) (h2 r1 hr1 e.key hk1)

theorem runG_inv : ∀ (ops : List GOp) (s : GState),
    KeysStrict (keysOf (runG ops s).stream.values) → InvP s → InvP (runG ops s) := by
  intro ops
  induction ops with
  | nil => intro s _ h; exact h
  | cons op rest ih =>
    intro s hstrict h
    rw [runG, List.foldl_cons, ← runG] at hstrict ⊢
    refine ih _ hstrict ?_
    obtain ⟨suf, hsuf⟩ := runG_values_ext rest (GOp.apply s op)
    obtain ⟨suf0, hsuf0⟩ := GOp.apply_stream_values s op
    have hcur : KeysStrict (keysOf s.stream.values) := by
      rw [hsuf, hsuf0, List.append_assoc, keysOf_append] at hstrict
      exact (List.pairwise_append.mp hstrict).1
    cases op with
    | gadd f k now => exact InvP_gadd h f k now
    | gread c cnt now => exact InvP_gread hcur h c cnt now

theorem XStream.add_entriesAdded (st : XStream) (fields : List Str) (ek : Str) (now : Nat) :
    (st.add fields ek now).2.entriesAdded =
      (match (st.add fields ek now).1 with
       | .ok (some _) => st.entriesAdded + 1
       | _ => st.entriesAdded) := by
  rw [XStream.add]
  split
  · rfl
  · rcases hres : st.resolveKey ek now with e | ko
    · rfl
    · rcases ko with _ | k
      · rfl
      · rcases hlast : (keysOf st.values).getLast? with _ | last
        · rfl
        · dsimp only
          by_cases hlt : kLT k last = true
          · rw [if_pos hlt]
          · rw [if_neg hlt]

theorem eraseIdx_last {α : Type} (l : List α) : l.eraseIdx (l.length - 1) = l.dropLast := by
  induction l with
  | nil => rfl
  | cons a t ih =>
    cases t with
    | nil => rfl
    | cons b t' =>
      have h1 : (a :: b :: t').length - 1 = t'.length + 1 := by simp
      have h2 : (b :: t').length - 1 = t'.length := by simp
      rw [h1, List.eraseIdx_cons_succ, ← h2, ih]
      rfl

theorem find_index_key_as_str_parse (st : XStream) {s : Str} {k : StreamEntryKey}
    (hds : s ≠ ['$']) (hp : StreamEntryKey.parse_str s = some k) :
    st.find_index_key_as_str s = some (findIndexV st.values k true) := by
  rw [XStream.find_index_key_as_str, if_neg hds, hp]
  rfl

theorem pySliceFrom_nonneg {α : Type} (l : List α) {i : Int} (h : 0 ≤ i) :
    pySliceFrom l i = l.drop i.toNat := by
  rw [pySliceFrom]
  rw [if_neg (by omega)]

theorem group_lag_eq (g : StreamGroup) (values : List StreamEntry) :
    g.group_lag values = .ok (lagClaimFormula g values) := by
  rw [StreamGroup.group_lag, lagClaimFormula]
  rw [findIndexV_fst, findIndexV_fst]
  rcases her : g.entriesRead with _ | er
  · have hsi := bisectLeft_le_length (keysOf values) g.startKey
    rw [keysOf_length] at hsi
    rw [if_neg (by simp only [Option.getD_none]; omega),
      if_neg (by simp only [Option.getD_none]; omega)]
  · simp only [Option.getD_some]
    by_cases hc : (bisectLeft (keysOf values) g.startKey : Int) + er > (values.length : Int)
    · rw [if_pos hc, if_pos hc]
    · rw [if_neg hc, if_neg hc]

theorem resolveKey_ts_star (st : XStream) (ts now : Nat) :
    st.resolveKey (natDigits ts ++ ['-', '*']) now =
      .ok (some ⟨ts, match (keysOf st.values).getLast? with
                     | some last => if last.ts = ts then last.seq + 1 else 0
                     | none => 0⟩) := by
  have hlen : (natDigits ts ++ ['-', '*']).length = (natDigits ts).length + 2 := by simp
  have hne : natDigits ts ++ ['-', '*'] ≠ ['*'] := by
    intro h
    rw [h] at hlen
    simp at hlen
  have hgl : (natDigits ts ++ ['-', '*']).getLast? = some '*' := by
    rw [show natDigits ts ++ ['-', '*'] = (natDigits ts ++ ['-']) ++ ['*'] by simp]
    exact List.getLast?_concat _
  have hsplit : splitChar '-' (natDigits ts ++ ['-', '*']) = [natDigits ts, ['*']] := by
    rw [show (['-', '*'] : Str) = '-' :: ['*'] from rfl,
      splitChar_append '-' (natDigits ts) ['*'] (isDigits_no_dash (isDigits_natDigits ts)),
      splitChar_no_sep '-' ['*'] (by intro c hc; simp at hc; subst hc; decide)]
  rw [XStream.resolveKey, if_neg hne, hgl]
  dsimp only
  rw [if_pos rfl, hsplit]
  dsimp only
  rw [strToNat?_natDigits]
  dsimp only
  rcases hlast : (keysOf st.values).getLast? with _ | last
  · rfl
  · dsimp only
    by_cases h : last.ts = ts
    · simp [h]
    · simp [h]

theorem delete_dollar_nil {st : XStream} (h : st.values = []) :
    st.delete [['$']] = (.error .indexError, st) := by
  rw [XStream.delete, deleteGo]
  rw [XStream.find_index_key_as_str, if_pos rfl]
  dsimp only
  rw [if_pos rfl]
  rw [show st.values[(max ((st.values.length : Int) - 1) 0).toNat]? = none by
    rw [h]; rfl]

theorem delete_dollar_cons {st : XStream} (h : st.values ≠ []) :
    st.delete [['$']] = (.ok 1, ⟨st.values.dropLast,
      kmax (st.values.getLastD ⟨⟨0, 0⟩, []⟩).key st.maxDeletedId, st.entriesAdded⟩) := by
  have hlen : 1 ≤ st.values.length := by
    cases hv : st.values with
    | nil => exact absurd hv h
    | cons a t => simp
  have hidx : (max ((st.values.length : Int) - 1) 0).toNat = st.values.length - 1 := by
    rw [max_eq_left (by omega)]
    omega
  rcases hgl : st.values.getLast? with _ | x
  · rw [List.getLast?_eq_none_iff] at hgl
    exact absurd hgl h
  · have hget : st.values[st.values.length - 1]? = some x := by
      rw [← List.getLast?_eq_getElem?]
      exact hgl
    have hgld : st.values.getLastD ⟨⟨0, 0⟩, []⟩ = x := by
      rw [List.getLastD_eq_getLast?, hgl]
      rfl
    rw [XStream.delete, deleteGo]
    rw [XStream.find_index_key_as_str, if_pos rfl]
    dsimp only
    rw [if_pos rfl, hidx, hget]
    dsimp only
    rw [eraseIdx_last, hgld]
    rfl

theorem trimFinish_char (st : XStream) (si : Int) (hsi : si ≤ (st.values.length : Int)) :
    (trimFinish st si none).1 = .ok (max si 0) ∧
    (trimFinish st si none).2.values = st.values.drop (max si 0).toNat ∧
    (max si 0).toNat = st.values.length - (trimFinish st si none).2.values.length ∧
    ∀ l : Int, (trimFinish st si (some l)).1 = .ok (min si l) ∧
      (trimFinish st si (some l)).2.values = pySliceFrom st.values (min si l) ∧
      min si l ≤ max si 0 ∧
      (0 ≤ min si l →
        (trimFinish st si (some l)).2.values = st.values.drop (min si l).toNat ∧
        (min si l).toNat = st.values.length - (trimFinish st si (some l)).2.values.length) := by
  refine ⟨rfl, ?_, ?_, ?_⟩
  · show pySliceFrom st.values (max si 0) = _
    exact pySliceFrom_nonneg st.values (by omega)
  · show (max si 0).toNat = st.values.length - (pySliceFrom st.values (max si 0)).length
    rw [pySliceFrom_nonneg st.values (by omega), List.length_drop]
    omega
  · intro l
    refine ⟨rfl, rfl, by omega, ?_⟩
    intro hpos
    constructor
    · show pySliceFrom st.values (min si l) = _
      exact pySliceFrom_nonneg st.values hpos
    · show (min si l).toNat = st.values.length - (pySliceFrom st.values (min si l)).length
      rw [pySliceFrom_nonneg st.values hpos, List.length_drop]
      omega

theorem trim_minkey_eq (st : XStream) {s : Str} {k : StreamEntryKey} (hds : s ≠ ['$'])
    (hparse : StreamEntryKey.parse_str s = some k) (lim : Option Int) :
    st.trim none (some s) lim = trimFinish st ((findIndexV st.values k true).1 : Int) lim := by
  rw [XStream.trim.eq_def]
  dsimp only
  rw [find_index_key_as_str_parse st hds hparse]

/-- Claim C1 is false as stated: on a log whose last stored key is `5-0`, an
append resolving to the equal key `5-0` — which is ≤ the last stored key — is
accepted: it returns the encoded key rather than the not-added sentinel and
appends a duplicate entry.  Only strictly smaller keys are rejected. -/
theorem claim_c1_counterexample :
    stA.resolveKey ['5', '-', '0'] 0 = .ok (some ⟨5, 0⟩) ∧
    (keysOf stA.values).getLast? = some ⟨5, 0⟩ ∧
    kLE ⟨5, 0⟩ ⟨5, 0⟩ = true ∧
    (stA.add [['a'], ['1']] ['5', '-', '0'] 0).1 = .ok (some ['5', '-', '0']) ∧
    (stA.add [['a'], ['1']] ['5', '-', '0'] 0).2.values.length = 2 := by
  decide

/-- Claim C1 (amended): for every log state and every append with an
even-length field list whose resolved key is strictly less than the current
last stored key, the append returns the not-added sentinel and leaves the
stream state — entry sequence, `entries_added` and `max_deleted_key` —
entirely unchanged; no exception is raised.  (An append whose resolved key
equals the last stored key is accepted, not rejected.) -/
theorem claim_c1_amended (st : XStream) (fields : List Str) (ek : Str) (now : Nat)
    (k lastK : StreamEntryKey)
    (heven : fields.length % 2 = 0)
    (hres : st.resolveKey ek now = .ok (some k))
    (hlast : (keysOf st.values).getLast? = some lastK)
    (hlt : kLT k lastK = true) :
    st.add fields ek now = (.ok none, st) := by
  rw [XStream.add, if_neg (by omega), hres]
  dsimp only
  rw [hlast]
  dsimp only
  rw [if_pos hlt]

theorem claim_c1_witness :
    ([['a'], ['1']] : List Str).length % 2 = 0 ∧
    stA.resolveKey ['4', '-', '0'] 0 = .ok (some ⟨4, 0⟩) ∧
    (keysOf stA.values).getLast? = some ⟨5, 0⟩ ∧
    kLT ⟨4, 0⟩ ⟨5, 0⟩ = true ∧
    stA.add [['a'], ['1']] ['4', '-', '0'] 0 = (.ok none, stA) :=
  ⟨by decide, by decide, by decide, by decide,
    claim_c1_amended stA [['a'], ['1']] ['4', '-', '0'] 0 ⟨4, 0⟩ ⟨5, 0⟩ (by decide) (by decide)
      (by decide) (by decide)⟩

/-- Claim C2 is false as stated: appending the explicit key `5-0` twice from
the empty log is accepted both times, leaving two adjacent entries with equal
keys, so the entry sequence is not strictly increasing and contains duplicate
keys. -/
theorem claim_c2_counterexample :
    ¬ List.Chain' (fun a b : StreamEntry => kLT a.key b.key = true) (runOps c2ops).values := by
  intro h
  have hv : (runOps c2ops).values =
      [⟨⟨5, 0⟩, [['a'], ['1']]⟩, ⟨⟨5, 0⟩, [['a'], ['1']]⟩] := by decide
  rw [hv, List.chain'_cons] at h
  exact absurd h.1 (by decide)

/-- Claim C2 (amended): after every sequence of operations (append, delete,
trim) from the empty log, adjacent stored entries are non-decreasing by key.
Strictness fails only in that an append whose key equals the current last
stored key is accepted, which can create adjacent duplicate keys. -/
theorem claim_c2_amended (ops : List SOp) :
    List.Chain' (fun a b : StreamEntry => kLE a.key b.key = true) (runOps ops).values := by
  have h := runOps_sorted ops
  rw [KeysSorted, keysOf, List.pairwise_map] at h
  exact h.chain'

/-- Claim C4: for every consumer group over every log, the lag computation in
`group_info` never raises and equals exactly the claimed formula — with
`entries_read` defaulted to 0 when unknown, lag is
`len - start_index - entries_read` when `start_index + entries_read` exceeds
the log length and `len - 1 - last_delivered_index` otherwise, the indices
being leftmost binary-search insertion points — and the `lag` field of the
`group_info` reply (its last element) carries that value. -/
theorem claim_c4 (g : StreamGroup) (values : List StreamEntry) :
    g.group_lag values = .ok (lagClaimFormula g values) ∧
    Except.map (fun rl => rl.getLast?) (g.group_info values)
      = .ok (some (RVal.iv (lagClaimFormula g values))) := by
  refine ⟨group_lag_eq g values, ?_⟩
  rw [StreamGroup.group_info, group_lag_eq g values]
  rfl

/-- Claim C6: for every valid key string of the form `ts` or `ts-seq` with
non-negative decimal components, parsing yields `(ts, 0)` respectively
`(ts, seq)`, and encoding the parsed key yields the canonical
zero-padding-free `ts-seq` byte string. -/
theorem claim_c6 (d1 d2 : Str) (h1 : IsDigits d1) (h2 : IsDigits d2) :
    StreamEntryKey.parse_str d1 = some ⟨digitsVal d1, 0⟩ ∧
    StreamEntryKey.parse_str (d1 ++ '-' :: d2) = some ⟨digitsVal d1, digitsVal d2⟩ ∧
    (StreamEntryKey.parse_str d1).map StreamEntryKey.encode
      = some (canonicalKeyStr (digitsVal d1) 0) ∧
    (StreamEntryKey.parse_str (d1 ++ '-' :: d2)).map StreamEntryKey.encode
      = some (canonicalKeyStr (digitsVal d1) (digitsVal d2)) := by
  refine ⟨parse_str_digits h1, parse_str_two h1 h2, ?_, ?_⟩
  · rw [parse_str_digits h1]
    rfl
  · rw [parse_str_two h1 h2]
    rfl

theorem claim_c6_witness :
    IsDigits ['0', '0', '7'] ∧ IsDigits ['0', '5'] ∧
    (StreamEntryKey.parse_str ['0', '0', '7'] = some ⟨digitsVal ['0', '0', '7'], 0⟩ ∧
     StreamEntryKey.parse_str (['0', '0', '7'] ++ '-' :: ['0', '5'])
       = some ⟨digitsVal ['0', '0', '7'], digitsVal ['0', '5']⟩ ∧
     (StreamEntryKey.parse_str ['0', '0', '7']).map StreamEntryKey.encode
       = some (canonicalKeyStr (digitsVal ['0', '0', '7']) 0) ∧
     (StreamEntryKey.parse_str (['0', '0', '7'] ++ '-' :: ['0', '5'])).map
         StreamEntryKey.encode
       = some (canonicalKeyStr (digitsVal ['0', '0', '7']) (digitsVal ['0', '5']))) :=
  ⟨by decide, by decide, claim_c6 ['0', '0', '7'] ['0', '5'] (by decide) (by decide)⟩

/-- Claim C7: appending with key spec `5-*` twice in a row to the empty log
returns `5-0` then `5-1`; and in general the key resolved for spec `ts-*` has
the given timestamp, with sequence `last.seq + 1` when the last stored key has
the same timestamp and 0 otherwise. -/
theorem claim_c7 :
    ((emptyStream.add [['a'], ['1']] ['5', '-', '*'] 7).1 = .ok (some ['5', '-', '0']) ∧
     ((emptyStream.add [['a'], ['1']] ['5', '-', '*'] 7).2.add
        [['a'], ['1']] ['5', '-', '*'] 8).1 = .ok (some ['5', '-', '1'])) ∧
    ∀ (st : XStream) (ts now : Nat),
      st.resolveKey (natDigits ts ++ ['-', '*']) now =
        .ok (some ⟨ts, match (keysOf st.values).getLast? with
                       | some last => if last.ts = ts then last.seq + 1 else 0
                       | none => 0⟩) :=
  ⟨by decide, fun st ts now => resolveKey_ts_star st ts now⟩

/-- Claim C8: `entries_added` is incremented by exactly one on a successful
append, is unchanged when an append is rejected or raises, and is left
unchanged by every delete and every trim call, however many entries they
remove. -/
theorem claim_c8 :
    (∀ (st : XStream) (fields : List Str) (ek : Str) (now : Nat),
      (st.add fields ek now).2.entriesAdded =
        (match (st.add fields ek now).1 with
         | .ok (some _) => st.entriesAdded + 1
         | _ => st.entriesAdded)) ∧
    (∀ (st : XStream) (lst : List Str), (st.delete lst).2.entriesAdded = st.entriesAdded) ∧
    (∀ (st : XStream) (m : Option Int) (s : Option Str) (l : Option Int),
      (st.trim m s l).2.entriesAdded = st.entriesAdded) :=
  ⟨XStream.add_entriesAdded, fun st lst => (XStream.delete_state st lst).2,
   fun st m s l => (XStream.trim_state st m s l).2⟩

/-- Claim C9: the key lookup for the string `$` reports an exact match at
index `max(len - 1, 0)`; consequently a delete of `$` on a non-empty log
removes the last stored entry (returning 1 and recording its key in
`max_deleted_id`), and on an empty log the subsequent index access is out of
range, so the delete raises `IndexError` rather than returning 0. -/
theorem claim_c9 (st : XStream) :
    st.find_index_key_as_str ['$']
      = some ((max ((st.values.length : Int) - 1) 0).toNat, true) ∧
    st.delete [['$']] =
      (if st.values = [] then (.error .indexError, st)
       else (.ok 1, ⟨st.values.dropLast,
         kmax (st.values.getLastD ⟨⟨0, 0⟩, []⟩).key st.maxDeletedId, st.entriesAdded⟩)) := by
  refine ⟨by rw [XStream.find_index_key_as_str, if_pos rfl], ?_⟩
  by_cases hv : st.values = []
  · rw [if_pos hv, delete_dollar_nil hv]
  · rw [if_neg hv, delete_dollar_cons hv]

/-- Claim C10: a key string with more than two dash-separated components whose
first two components are numeric parses without failure to the key built from
the first two components; everything after the second component is silently
ignored by the single parser every key-string consumer uses. -/
theorem claim_c10 (d1 d2 rest : Str) (h1 : IsDigits d1) (h2 : IsDigits d2) :
    StreamEntryKey.parse_str (d1 ++ '-' :: (d2 ++ '-' :: rest))
      = some ⟨digitsVal d1, digitsVal d2⟩ :=
  parse_str_many h1 h2

theorem claim_c10_witness :
    IsDigits ['5'] ∧ IsDigits ['3'] ∧
    StreamEntryKey.parse_str (['5'] ++ '-' :: (['3'] ++ '-' :: ['9']))
      = some ⟨digitsVal ['5'], digitsVal ['3']⟩ :=
  ⟨by decide, by decide, claim_c10 ['5'] ['3'] ['9'] (by decide) (by decide)⟩

/-- Claim C3 is false as stated: on a 3-entry log, `trim(max_length=5, limit=1)`
returns `-2` — the clamp of a negative cut to 0 does not happen once `limit`
is supplied — while removing one entry from the front (Python's negative slice
index), so the return value is negative and differs from the number of entries
removed, and the limit extended rather than capped the cut. -/
theorem claim_c3_counterexample :
    (st3.trim (some 5) none (some 1)).1 = .ok (-2) ∧
    (st3.trim (some 5) none (some 1)).2.values.length = 2 ∧
    ((-2 : Int) < 0) ∧
    ¬((-2 : Int) = (st3.values.length : Int)
        - ((st3.trim (some 5) none (some 1)).2.values.length : Int)) := by
  decide

/-- Claim C3 (amended): with exactly one of max_length/min_key supplied, the
cut index is `len - max_length` respectively the leftmost index whose key is
not less than min_key.  Without `limit`, a negative cut clamps to 0, all
entries before the cut are discarded and the return value equals the number of
entries removed (for non-negative max_length).  With `limit`, the return value
is `min(cut, limit)` with no clamping to 0: when that value is non-negative it
caps the cut and equals the number removed, but when it is negative the call
returns the negative value and slices with Python's negative-index semantics,
which can remove entries even though the clamped cut would remove none. -/
theorem claim_c3_amended (st : XStream) (m l : Int) (s : Str) (k : StreamEntryKey)
    (hm : 0 ≤ m)
    (hsort : KeysSorted (keysOf st.values))
    (hparse : StreamEntryKey.parse_str s = some k)
    (hds : s ≠ ['$']) :
    ((st.trim (some m) none none).1 = .ok (max ((st.values.length : Int) - m) 0) ∧
     (st.trim (some m) none none).2.values
       = st.values.drop (max ((st.values.length : Int) - m) 0).toNat ∧
     (max ((st.values.length : Int) - m) 0).toNat
       = st.values.length - (st.trim (some m) none none).2.values.length) ∧
    ((st.trim none (some s) none).1
       = .ok (((keysOf st.values).takeWhile fun a => kLT a k).length : Int) ∧
     (st.trim none (some s) none).2.values
       = st.values.drop ((keysOf st.values).takeWhile fun a => kLT a k).length ∧
     ((keysOf st.values).takeWhile fun a => kLT a k).length
       = st.values.length - (st.trim none (some s) none).2.values.length) ∧
    ((st.trim (some m) none (some l)).1 = .ok (min ((st.values.length : Int) - m) l) ∧
     (st.trim (some m) none (some l)).2.values
       = pySliceFrom st.values (min ((st.values.length : Int) - m) l) ∧
     min ((st.values.length : Int) - m) l ≤ max ((st.values.length : Int) - m) 0 ∧
     (0 ≤ min ((st.values.length : Int) - m) l →
       (st.trim (some m) none (some l)).2.values
         = st.values.drop (min ((st.values.length : Int) - m) l).toNat ∧
       (min ((st.values.length : Int) - m) l).toNat
         = st.values.length - (st.trim (some m) none (some l)).2.values.length)) ∧
    ((st.trim none (some s) (some l)).1
       = .ok (min (((keysOf st.values).takeWhile fun a => kLT a k).length : Int) l) ∧
     (st.trim none (some s) (some l)).2.values
       = pySliceFrom st.values
           (min (((keysOf st.values).takeWhile fun a => kLT a k).length : Int) l) ∧
     (0 ≤ min (((keysOf st.values).takeWhile fun a => kLT a k).length : Int) l →
       (min (((keysOf st.values).takeWhile fun a => kLT a k).length : Int) l).toNat
         = st.values.length - (st.trim none (some s) (some l)).2.values.length)) := by
  have hM : ∀ lim, st.trim (some m) none lim
      = trimFinish st ((st.values.length : Int) - m) lim := fun lim => rfl
  have hidx : ((findIndexV st.values k true).1 : Int)
      = (((keysOf st.values).takeWhile fun a => kLT a k).length : Int) := by
    rw [findIndexV_fst, bisectLeft_eq_takeWhile hsort]
  have hK : ∀ lim, st.trim none (some s) lim
      = trimFinish st ((((keysOf st.values).takeWhile fun a => kLT a k).length : Nat) : Int)
          lim := by
    intro lim
    rw [trim_minkey_eq st hds hparse lim, hidx]
  have hnlen : ((keysOf st.values).takeWhile fun a => kLT a k).length ≤ st.values.length := by
    have h := (takeWhile_char (fun a => kLT a k) (keysOf st.values) ⟨0, 0⟩).2.2
    rwa [keysOf_length] at h
  obtain ⟨m1, m2, m3, m4⟩ := trimFinish_char st ((st.values.length : Int) - m) (by omega)
  obtain ⟨c1, c2, c3, c4⟩ := m4 l
  obtain ⟨k1, k2, k3, k4⟩ := trimFinish_char st
    ((((keysOf st.values).takeWhile fun a => kLT a k).length : Nat) : Int)
    (by exact_mod_cast hnlen)
  obtain ⟨d1, d2, d3, d4⟩ := k4 l
  have hmax : max ((((keysOf st.values).takeWhile fun a => kLT a k).length : Nat) : Int) 0
      = ((((keysOf st.values).takeWhile fun a => kLT a k).length : Nat) : Int) :=
    max_eq_left (Int.natCast_nonneg _)
  rw [hmax] at k1 k2 k3
  rw [Int.toNat_natCast] at k2 k3
  refine ⟨⟨?_, ?_, ?_⟩, ⟨?_, ?_, ?_⟩, ⟨?_, ?_, c3, ?_⟩, ⟨?_, ?_, ?_⟩⟩
  · rw [hM none]; exact m1
  · rw [hM none]; exact m2
  · rw [hM none]; exact m3
  · rw [hK none]; exact k1
  · rw [hK none]; exact k2
  · rw [hK none]; exact k3
  · rw [hM (some l)]; exact c1
  · rw [hM (some l)]; exact c2
  · rw [hM (some l)]; exact c4
  · rw [hK (some l)]; exact d1
  · rw [hK (some l)]; exact d2
  · rw [hK (some l)]
    intro hpos
    exact (d4 hpos).2

theorem claim_c3_witness :
    ((0 : Int) ≤ 1 ∧ KeysSorted (keysOf st3.values) ∧
     StreamEntryKey.parse_str ['2', '-', '2'] = some ⟨2, 2⟩ ∧
     (['2', '-', '2'] : Str) ≠ ['$']) ∧
    (st3.trim (some 1) none none).1 = .ok (max ((st3.values.length : Int) - 1) 0) ∧
    (st3.trim none (some ['2', '-', '2']) none).1
      = .ok (((keysOf st3.values).takeWhile fun a => kLT a ⟨2, 2⟩).length : Int) ∧
    (st3.trim (some 1) none (some 5)).1 = .ok (min ((st3.values.length : Int) - 1) 5) :=
  ⟨⟨by decide, by decide, by decide, by decide⟩,
   (claim_c3_amended st3 1 5 ['2', '-', '2'] ⟨2, 2⟩ (by decide) (by decide) (by decide)
      (by decide)).1.1,
   (claim_c3_amended st3 1 5 ['2', '-', '2'] ⟨2, 2⟩ (by decide) (by decide) (by decide)
      (by decide)).2.1.1,
   (claim_c3_amended st3 1 5 ['2', '-', '2'] ⟨2, 2⟩ (by decide) (by decide) (by decide)
      (by decide)).2.2.1.1⟩

/-- Claim C5 is false as stated: after appending key `5-0`, reading it, and
appending `5-0` again (the duplicate append is accepted), the next `">"`-read
returns the key `5-0` a second time — a key equal to (not strictly greater
than) the group cursor at the start of the call and already returned by an
earlier read of the same group. -/
theorem claim_c5_counterexample :
    ¬ ((∀ rec ∈ (runG c5ops (initG ⟨0, 0⟩ none)).recs, ∀ k ∈ rec.returned,
          kLT rec.ldBefore k = true ∧ k ∈ rec.pelAfter) ∧
       List.Pairwise (fun r1 r2 => ∀ k ∈ r2.returned, k ∉ r1.returned)
         (runG c5ops (initG ⟨0, 0⟩ none)).recs) := by
  decide

/-- Claim C5 (amended): over every interleaving of appends and group reads of
new messages (`start_id = ">"`, `noack = false`) starting from the empty
stream with a freshly created group, provided the appends leave the log
strictly increasing by key (no duplicate-key appends), every read returns
only keys strictly greater than the group's `last_delivered_key` at the start
of that call, every returned key is in the group's PEL right after the call,
and no key is returned by two different reads. -/
theorem claim_c5_amended (ops : List GOp) (startKey : StreamEntryKey) (er0 : Option Int)
    (hstrict : KeysStrict (keysOf (runG ops (initG startKey er0)).stream.values)) :
    (∀ rec ∈ (runG ops (initG startKey er0)).recs, ∀ k ∈ rec.returned,
      kLT rec.ldBefore k = true ∧ k ∈ rec.pelAfter) ∧
    List.Pairwise (fun r1 r2 => ∀ k ∈ r2.returned, k ∉ r1.returned)
      (runG ops (initG startKey er0)).recs := by
  have h0 : InvP (initG startKey er0) :=
    ⟨by simp [initG], by simp [initG], by simp [initG]⟩
  have h := runG_inv ops (initG startKey er0) hstrict h0
  exact ⟨h.1, h.2.2⟩

theorem claim_c5_witness :
    KeysStrict (keysOf (runG c5wops (initG ⟨0, 0⟩ none)).stream.values) ∧
    ((∀ rec ∈ (runG c5wops (initG ⟨0, 0⟩ none)).recs, ∀ k ∈ rec.returned,
        kLT rec.ldBefore k = true ∧ k ∈ rec.pelAfter) ∧
     List.Pairwise (fun r1 r2 => ∀ k ∈ r2.returned, k ∉ r1.returned)
       (runG c5wops (initG ⟨0, 0⟩ none)).recs) :=
  ⟨by decide, claim_c5_amended c5wops ⟨0, 0⟩ none (by decide)⟩
